import Mathlib

/-!
Verification of the OU-process dataset generator (`src/datasets/ou_process.py`).

The two Python functions `simulate_ou_process` and `create_ou_dataset` are
shallowly embedded over the exact field `ℚ` (every Python float value is a
rational; the program's data path uses only field operations, since the
Gaussian draw itself is modelled as an input and `np.sqrt(dt)` only describes
that draw's distribution).  The ambient NumPy random generator is modelled as
a stream of draws together with a position: each call to `np.random.normal`
returns the draw at the current position and advances the position by one.
NumPy/torch arrays become lists; the only fallible operation, `np.zeros` with
a possibly negative first dimension, is modelled with `Except`.
-/

namespace NSDE

/-- The ambient random generator: an infinite stream of Gaussian draws
(`stream`) together with the current read position (`pos`).  `np.random.normal`
consumes the draw at `pos` and advances `pos`. -/
structure RNG where
  stream : ℕ → ℚ
  pos : ℕ

/-- One call to `np.random.normal(0, np.sqrt(dt))`: returns the next draw of
the ambient source and the advanced generator.  (The scale `np.sqrt(dt)` is a
distributional property of the draw; the draw itself is the stream value.) -/
def RNG.next (g : RNG) : ℚ × RNG :=
  (g.stream g.pos, ⟨g.stream, g.pos + 1⟩)

/-- `np.linspace(0, T, n)`: `n` evenly spaced points from `0` to `T`,
`t i = i * T / (n - 1)`. -/
def linspace (T : ℚ) (n : ℕ) : List ℚ :=
  (List.range n).map (fun i : ℕ => (i : ℚ) * T / ((n : ℚ) - 1))

/-- The body of the `for i in range(1, len_trajectory)` loop of
`simulate_ou_process`, run for `k` remaining iterations from current value `x`
and generator `g`: each iteration draws `dB`, forms
`X[i] = X[i-1] + theta * drift * dt + diffusion * dB` with `drift = mu - X[i-1]`
and `diffusion = sigma`, and appends the new value. -/
def ouLoop (mu sigma theta dt : ℚ) : ℕ → ℚ → RNG → List ℚ × RNG
  | 0, _, g => ([], g)
  | k + 1, x, g =>
    let p := RNG.next g
    let dB := p.1
    let drift := mu - x
    let diffusion := sigma
    let xi := x + theta * drift * dt + diffusion * dB
    let r := ouLoop mu sigma theta dt k xi p.2
    (xi :: r.1, r.2)

/-- `simulate_ou_process(T, len_trajectory, mu, sigma, theta, X_0)`:
time grid `t = np.linspace(0, T, len_trajectory)`, path `X` with `X[0] = X_0`,
step `dt = T / len_trajectory`, and the loop filling `X[1..len_trajectory-1]`.
Returns `((t, X), g)` where `g` is the generator after the call. -/
def simulate_ou_process (T : ℚ) (len_trajectory : ℕ) (mu sigma theta X_0 : ℚ)
    (g : RNG) : (List ℚ × List ℚ) × RNG :=
  let t := linspace T len_trajectory
  let dt := T / (len_trajectory : ℚ)
  let r := ouLoop mu sigma theta dt (len_trajectory - 1) X_0 g
  ((t, X_0 :: r.1), r.2)

/-- The value of the OU recurrence after `j` steps from `X_0`, where `d m` is
the draw consumed at step `m` (zero-based):
`ouChain ... (j+1) = X_j + theta * (mu - X_j) * dt + sigma * d j`. -/
def ouChain (mu sigma theta dt X_0 : ℚ) (d : ℕ → ℚ) : ℕ → ℚ
  | 0 => X_0
  | j + 1 =>
    let x := ouChain mu sigma theta dt X_0 d j
    x + theta * (mu - x) * dt + sigma * d j

lemma getD_range_map {α : Type} (f : ℕ → α) (a : α) {i n : ℕ} (h : i < n) :
    ((List.range n).map f).getD i a = f i := by
  simp [List.getD_eq_getElem?_getD, List.getElem?_map, List.getElem?_range h]

lemma ouChain_shift (mu sigma theta dt : ℚ) (x : ℚ) (d : ℕ → ℚ) (j : ℕ) :
    ouChain mu sigma theta dt x d (j + 1) =
      ouChain mu sigma theta dt (x + theta * (mu - x) * dt + sigma * d 0)
        (fun m => d (m + 1)) j := by
  induction j with
  | zero => simp [ouChain]
  | succ j ihj =>
    show ouChain mu sigma theta dt x d (j + 1) +
        theta * (mu - ouChain mu sigma theta dt x d (j + 1)) * dt + sigma * d (j + 1) = _
    rw [ihj]; rfl

lemma ouChain_shift_stream (mu sigma theta dt x : ℚ) (g : RNG) (j : ℕ) :
    ouChain mu sigma theta dt x (fun m => g.stream (g.pos + m)) (j + 1) =
      ouChain mu sigma theta dt (x + theta * (mu - x) * dt + sigma * g.stream g.pos)
        (fun m => g.stream (g.pos + 1 + m)) j := by
  have e2 : (fun m => g.stream (g.pos + (m + 1))) = (fun m => g.stream (g.pos + 1 + m)) := by
    funext m; congr 1; omega
  rw [ouChain_shift mu sigma theta dt x (fun m => g.stream (g.pos + m)) j]
  simp only [Nat.add_zero, e2]

lemma mapChain_succ (mu sigma theta dt x : ℚ) (g : RNG) (k : ℕ) :
    (List.range (k + 1)).map
        (fun j => ouChain mu sigma theta dt x (fun m => g.stream (g.pos + m)) (j + 1)) =
      (x + theta * (mu - x) * dt + sigma * g.stream g.pos) ::
        (List.range k).map (fun j =>
          ouChain mu sigma theta dt (x + theta * (mu - x) * dt + sigma * g.stream g.pos)
            (fun m => g.stream (g.pos + 1 + m)) (j + 1)) := by
  rw [List.range_succ_eq_map, List.map_cons, List.map_map]
  simp only [List.cons.injEq]
  constructor
  · simp [ouChain]
  · apply List.map_congr_left
    intro j _
    simp only [Function.comp_apply]
    exact ouChain_shift_stream mu sigma theta dt x g (j + 1)

lemma ouLoop_eq (mu sigma theta dt : ℚ) :
    ∀ (k : ℕ) (x : ℚ) (g : RNG),
      ouLoop mu sigma theta dt k x g =
        ((List.range k).map
            (fun j => ouChain mu sigma theta dt x (fun m => g.stream (g.pos + m)) (j + 1)),
          ⟨g.stream, g.pos + k⟩) := by
  intro k
  induction k with
  | zero => intro x g; simp [ouLoop]
  | succ k ih =>
    intro x g
    simp only [ouLoop, RNG.next, ih, mapChain_succ]
    have hpos : g.pos + 1 + k = g.pos + (k + 1) := by omega
    rw [hpos]

lemma simulate_X_eq (T : ℚ) (n : ℕ) (mu sigma theta X_0 : ℚ) (g : RNG) (hn : 1 ≤ n) :
    (simulate_ou_process T n mu sigma theta X_0 g).1.2 =
      (List.range n).map
        (fun j => ouChain mu sigma theta (T / (n : ℚ)) X_0 (fun m => g.stream (g.pos + m)) j) := by
  obtain ⟨m, rfl⟩ : ∃ m, n = m + 1 := ⟨n - 1, by omega⟩
  simp only [simulate_ou_process, ouLoop_eq]
  rw [List.range_succ_eq_map, List.map_cons, List.map_map]
  rfl

lemma simulate_X_getD (T : ℚ) (n j : ℕ) (mu sigma theta X_0 : ℚ) (g : RNG)
    (hn : 1 ≤ n) (hj : j < n) :
    ((simulate_ou_process T n mu sigma theta X_0 g).1.2).getD j 0 =
      ouChain mu sigma theta (T / (n : ℚ)) X_0 (fun m => g.stream (g.pos + m)) j := by
  rw [simulate_X_eq T n mu sigma theta X_0 g hn]
  exact getD_range_map _ _ hj

lemma simulate_X_length (T : ℚ) (n : ℕ) (mu sigma theta X_0 : ℚ) (g : RNG) (hn : 1 ≤ n) :
    ((simulate_ou_process T n mu sigma theta X_0 g).1.2).length = n := by
  rw [simulate_X_eq T n mu sigma theta X_0 g hn]
  simp

lemma simulate_t_eq (T : ℚ) (n : ℕ) (mu sigma theta X_0 : ℚ) (g : RNG) :
    (simulate_ou_process T n mu sigma theta X_0 g).1.1 = linspace T n := rfl

lemma simulate_rng_eq (T : ℚ) (n : ℕ) (mu sigma theta X_0 : ℚ) (g : RNG) :
    (simulate_ou_process T n mu sigma theta X_0 g).2 = ⟨g.stream, g.pos + (n - 1)⟩ := by
  simp only [simulate_ou_process, ouLoop_eq]

lemma linspace_length (T : ℚ) (n : ℕ) : (linspace T n).length = n := by
  simp [linspace]

lemma linspace_getD (T : ℚ) {i n : ℕ} (h : i < n) :
    (linspace T n).getD i 0 = (i : ℚ) * T / ((n : ℚ) - 1) := by
  unfold linspace
  exact getD_range_map _ _ h

/-- C5: for every input, the path returned by `simulate_ou_process` has
`X[0]` exactly equal to `X_0` (the code sets `X[0] = X_0` and the loop never
touches index `0`). -/
theorem path_starts_at_X0 (T : ℚ) (n : ℕ) (mu sigma theta X_0 : ℚ) (g : RNG) :
    ((simulate_ou_process T n mu sigma theta X_0 g).1.2).getD 0 0 = X_0 := rfl

/-- C10: a call to `simulate_ou_process` advances the ambient generator by
exactly `len_trajectory - 1` draws and leaves its stream unchanged; the
post-call generator state depends only on `len_trajectory` and the incoming
state, not on `T`, `mu`, `sigma`, `theta` or `X_0`. -/
theorem simulate_consumes_draws (T : ℚ) (n : ℕ) (mu sigma theta X_0 : ℚ) (g : RNG)
    (hn : 2 ≤ n) :
    (simulate_ou_process T n mu sigma theta X_0 g).2 = ⟨g.stream, g.pos + (n - 1)⟩ ∧
      ∀ (T2 mu2 sigma2 theta2 X2 : ℚ),
        (simulate_ou_process T2 n mu2 sigma2 theta2 X2 g).2 =
          (simulate_ou_process T n mu sigma theta X_0 g).2 := by
  refine ⟨simulate_rng_eq T n mu sigma theta X_0 g, ?_⟩
  intro T2 mu2 sigma2 theta2 X2
  rw [simulate_rng_eq, simulate_rng_eq]

theorem simulate_consumes_draws_witness :
    (simulate_ou_process 1 2 0 0 0 0 ⟨fun _ => 0, 0⟩).2 = ⟨fun _ => (0 : ℚ), 0 + (2 - 1)⟩ ∧
      ∀ (T2 mu2 sigma2 theta2 X2 : ℚ),
        (simulate_ou_process T2 2 mu2 sigma2 theta2 X2 ⟨fun _ => 0, 0⟩).2 =
          (simulate_ou_process 1 2 0 0 0 0 ⟨fun _ => 0, 0⟩).2 :=
  simulate_consumes_draws 1 2 0 0 0 0 ⟨fun _ => 0, 0⟩ (by decide)

/-- C9: `simulate_ou_process` is deterministic given the state of the ambient
random generator: two calls with identical parameters starting from the same
generator state (same stream of pending draws, same position) return identical
time grids, identical paths, and identical generator end states. -/
theorem simulate_reproducible (T : ℚ) (n : ℕ) (mu sigma theta X_0 : ℚ) (g1 g2 : RNG)
    (hs : g1.stream = g2.stream) (hp : g1.pos = g2.pos) :
    simulate_ou_process T n mu sigma theta X_0 g1 =
      simulate_ou_process T n mu sigma theta X_0 g2 := by
  obtain ⟨s1, p1⟩ := g1
  obtain ⟨s2, p2⟩ := g2
  dsimp only at hs hp
  rw [hs, hp]

theorem simulate_reproducible_witness :
    simulate_ou_process 1 2 0 0 0 0 ⟨fun m => m, 0⟩ =
      simulate_ou_process 1 2 0 0 0 0 ⟨fun m => m, 0⟩ :=
  simulate_reproducible 1 2 0 0 0 0 ⟨fun m => m, 0⟩ ⟨fun m => m, 0⟩ rfl rfl

lemma ouChain_theta_sigma_zero (mu dt X_0 : ℚ) (d : ℕ → ℚ) (j : ℕ) :
    ouChain mu 0 0 dt X_0 d j = X_0 := by
  induction j with
  | zero => rfl
  | succ j ihj => simp [ouChain, ihj]

/-- C8: for `theta = 0` and `sigma = 0` the path is constant: every entry of
the returned path equals `X_0`. -/
theorem theta_sigma_zero_constant (T : ℚ) (n i : ℕ) (mu sigma theta X_0 : ℚ) (g : RNG)
    (htheta : theta = 0) (hsigma : sigma = 0) (hn : 1 ≤ n) (hi : i < n) :
    ((simulate_ou_process T n mu sigma theta X_0 g).1.2).getD i 0 = X_0 := by
  subst htheta hsigma
  rw [simulate_X_getD T n i mu 0 0 X_0 g hn hi]
  exact ouChain_theta_sigma_zero mu (T / (n : ℚ)) X_0 _ i

theorem theta_sigma_zero_constant_witness :
    ((simulate_ou_process 1 3 5 0 0 7 ⟨fun m => m, 0⟩).1.2).getD 2 0 = 7 :=
  theta_sigma_zero_constant 1 3 2 5 0 0 7 ⟨fun m => m, 0⟩ rfl rfl (by decide) (by decide)

/-- The property claimed of one recurrence step: `X[i]` is built from `X[i-1]`
and the `i`-th consumed draw by the Euler–Maruyama update with `dt = T / n`,
and depends on nothing else of the draw history. -/
def stepSpec (T : ℚ) (n : ℕ) (mu sigma theta X_0 : ℚ) (g : RNG) (i : ℕ) : Prop :=
  ((simulate_ou_process T n mu sigma theta X_0 g).1.2).getD i 0 =
      ((simulate_ou_process T n mu sigma theta X_0 g).1.2).getD (i - 1) 0 +
        theta * (mu - ((simulate_ou_process T n mu sigma theta X_0 g).1.2).getD (i - 1) 0) *
          (T / (n : ℚ)) +
        sigma * g.stream (g.pos + (i - 1)) ∧
    ∀ g2 : RNG,
      ((simulate_ou_process T n mu sigma theta X_0 g2).1.2).getD (i - 1) 0 =
          ((simulate_ou_process T n mu sigma theta X_0 g).1.2).getD (i - 1) 0 →
        g2.stream (g2.pos + (i - 1)) = g.stream (g.pos + (i - 1)) →
        ((simulate_ou_process T n mu sigma theta X_0 g2).1.2).getD i 0 =
          ((simulate_ou_process T n mu sigma theta X_0 g).1.2).getD i 0

/-- C1: for `len_trajectory ≥ 2` and `1 ≤ i ≤ len_trajectory - 1` the path
satisfies `X[i] = X[i-1] + theta*(mu - X[i-1])*dt + sigma*dB_i` with
`dt = T / len_trajectory` and `dB_i` the `i`-th draw consumed from the ambient
source, and `X[i]` depends on no earlier value other than `X[i-1]` and `dB_i`. -/
theorem ou_recurrence_step (T mu sigma theta X_0 : ℚ) (n i : ℕ) (g : RNG)
    (hn : 2 ≤ n) (hi1 : 1 ≤ i) (hi2 : i ≤ n - 1) :
    stepSpec T n mu sigma theta X_0 g i := by
  have hn1 : 1 ≤ n := by omega
  have hi : i < n := by omega
  have hi' : i - 1 < n := by omega
  unfold stepSpec
  obtain ⟨p, rfl⟩ : ∃ p, i = p + 1 := ⟨i - 1, by omega⟩
  simp only [Nat.add_sub_cancel] at hi' ⊢
  constructor
  · rw [simulate_X_getD T n (p + 1) mu sigma theta X_0 g hn1 hi,
      simulate_X_getD T n p mu sigma theta X_0 g hn1 hi']
    rfl
  · intro g2 h1 h2
    rw [simulate_X_getD T n p mu sigma theta X_0 g2 hn1 hi',
      simulate_X_getD T n p mu sigma theta X_0 g hn1 hi'] at h1
    rw [simulate_X_getD T n (p + 1) mu sigma theta X_0 g2 hn1 hi,
      simulate_X_getD T n (p + 1) mu sigma theta X_0 g hn1 hi]
    show ouChain mu sigma theta (T / (n : ℚ)) X_0 (fun m => g2.stream (g2.pos + m)) p +
        theta *
          (mu - ouChain mu sigma theta (T / (n : ℚ)) X_0 (fun m => g2.stream (g2.pos + m)) p) *
          (T / (n : ℚ)) +
        sigma * g2.stream (g2.pos + p) = _
    rw [h1, h2]
    rfl

theorem ou_recurrence_step_witness : stepSpec 1 3 2 1 1 5 ⟨fun m => m, 0⟩ 1 :=
  ou_recurrence_step 1 2 1 1 5 3 1 ⟨fun m => m, 0⟩ (by decide) (by decide) (by decide)

/-- The claimed shape of the returned time grid: `len_trajectory` points,
first `0`, last `T`, evenly spaced with gap `T / (len_trajectory - 1)`,
strictly increasing; and the path has `len_trajectory` points as well. -/
def gridSpec (T : ℚ) (n : ℕ) (mu sigma theta X_0 : ℚ) (g : RNG) : Prop :=
  ((simulate_ou_process T n mu sigma theta X_0 g).1.1).length = n ∧
    ((simulate_ou_process T n mu sigma theta X_0 g).1.1).getD 0 0 = 0 ∧
    ((simulate_ou_process T n mu sigma theta X_0 g).1.1).getD (n - 1) 0 = T ∧
    (∀ i, i + 1 < n →
      ((simulate_ou_process T n mu sigma theta X_0 g).1.1).getD (i + 1) 0 -
          ((simulate_ou_process T n mu sigma theta X_0 g).1.1).getD i 0 =
        T / ((n : ℚ) - 1)) ∧
    (∀ i, i + 1 < n →
      ((simulate_ou_process T n mu sigma theta X_0 g).1.1).getD i 0 <
        ((simulate_ou_process T n mu sigma theta X_0 g).1.1).getD (i + 1) 0) ∧
    ((simulate_ou_process T n mu sigma theta X_0 g).1.2).length = n

/-- C2: for `T > 0` and `len_trajectory ≥ 2` the returned time grid has exactly
`len_trajectory` points, is strictly increasing and evenly spaced, starts at `0`
and ends at `T`; in particular `len_trajectory = 2` yields the grid `[0, T]` and
a two-point path (witnessed below at `n = 2`). -/
theorem time_grid_shape (T mu sigma theta X_0 : ℚ) (n : ℕ) (g : RNG)
    (hT : 0 < T) (hn : 2 ≤ n) :
    gridSpec T n mu sigma theta X_0 g := by
  have hn1 : 1 ≤ n := by omega
  have hnq : (2 : ℚ) ≤ (n : ℚ) := by exact_mod_cast hn
  have hc : (0 : ℚ) < (n : ℚ) - 1 := by linarith
  unfold gridSpec
  rw [simulate_t_eq]
  have hspace : ∀ i, i + 1 < n →
      (linspace T n).getD (i + 1) 0 - (linspace T n).getD i 0 = T / ((n : ℚ) - 1) := by
    intro i h
    rw [linspace_getD T h, linspace_getD T (by omega : i < n), div_sub_div_same]
    congr 1
    push_cast
    ring
  refine ⟨linspace_length T n, ?_, ?_, hspace, ?_, simulate_X_length T n mu sigma theta X_0 g hn1⟩
  · rw [linspace_getD T (by omega : 0 < n)]
    simp
  · rw [linspace_getD T (by omega : n - 1 < n), Nat.cast_sub hn1, Nat.cast_one]
    exact mul_div_cancel_left₀ T (ne_of_gt hc)
  · intro i h
    have hd := hspace i h
    have hpos : 0 < T / ((n : ℚ) - 1) := div_pos hT hc
    linarith

theorem time_grid_shape_witness : gridSpec 1 2 0 0 0 0 ⟨fun m => m, 0⟩ :=
  time_grid_shape 1 0 0 0 0 2 ⟨fun m => m, 0⟩ (by decide) (by decide)

/-- The claimed mismatch: consecutive grid points differ by
`T / (len_trajectory - 1)`, which is not the recurrence step
`dt = T / len_trajectory`. -/
def spacingSpec (T : ℚ) (n : ℕ) (mu sigma theta X_0 : ℚ) (g : RNG) : Prop :=
  (∀ i, i + 1 < n →
    ((simulate_ou_process T n mu sigma theta X_0 g).1.1).getD (i + 1) 0 -
        ((simulate_ou_process T n mu sigma theta X_0 g).1.1).getD i 0 =
      T / ((n : ℚ) - 1)) ∧
    T / ((n : ℚ) - 1) ≠ T / (n : ℚ)

/-- C3: for `T > 0` and `len_trajectory ≥ 2` the grid spacing is
`T / (len_trajectory - 1)`, which differs from the recurrence step size
`dt = T / len_trajectory` for every such `len_trajectory`. -/
theorem grid_spacing_ne_dt (T mu sigma theta X_0 : ℚ) (n : ℕ) (g : RNG)
    (hT : 0 < T) (hn : 2 ≤ n) :
    spacingSpec T n mu sigma theta X_0 g := by
  have hnq : (2 : ℚ) ≤ (n : ℚ) := by exact_mod_cast hn
  have hc : (0 : ℚ) < (n : ℚ) - 1 := by linarith
  unfold spacingSpec
  rw [simulate_t_eq]
  constructor
  · intro i h
    rw [linspace_getD T h, linspace_getD T (by omega : i < n), div_sub_div_same]
    congr 1
    push_cast
    ring
  · have hlt : T / (n : ℚ) < T / ((n : ℚ) - 1) :=
      div_lt_div_of_pos_left hT hc (by linarith)
    exact ne_of_gt hlt

theorem grid_spacing_ne_dt_witness : spacingSpec 1 2 0 0 0 0 ⟨fun m => m, 0⟩ :=
  grid_spacing_ne_dt 1 0 0 0 0 2 ⟨fun m => m, 0⟩ (by decide) (by decide)

lemma ouChain_sigma_zero_indep (mu theta dt X_0 : ℚ) (d d2 : ℕ → ℚ) (j : ℕ) :
    ouChain mu 0 theta dt X_0 d j = ouChain mu 0 theta dt X_0 d2 j := by
  induction j with
  | zero => rfl
  | succ j ihj => simp only [ouChain, ihj, zero_mul, add_zero]

/-- The claimed behaviour for `sigma = 0`: the noiseless recurrence holds
exactly at index `i`, and the whole returned path does not depend on the
ambient draws. -/
def sigmaZeroSpec (T : ℚ) (n : ℕ) (mu sigma theta X_0 : ℚ) (g : RNG) (i : ℕ) : Prop :=
  ((simulate_ou_process T n mu sigma theta X_0 g).1.2).getD i 0 =
      ((simulate_ou_process T n mu sigma theta X_0 g).1.2).getD (i - 1) 0 +
        theta * (mu - ((simulate_ou_process T n mu sigma theta X_0 g).1.2).getD (i - 1) 0) *
          (T / (n : ℚ)) ∧
    ∀ g2 : RNG,
      (simulate_ou_process T n mu sigma theta X_0 g2).1.2 =
        (simulate_ou_process T n mu sigma theta X_0 g).1.2

/-- C6: for `sigma = 0` the path satisfies the deterministic recurrence
`X[i] = X[i-1] + theta*(mu - X[i-1])*dt` exactly, and two runs with the same
parameters but different draw sequences return equal paths. -/
theorem sigma_zero_deterministic (T mu sigma theta X_0 : ℚ) (n i : ℕ) (g : RNG)
    (hsigma : sigma = 0) (hn : 2 ≤ n) (hi1 : 1 ≤ i) (hi2 : i ≤ n - 1) :
    sigmaZeroSpec T n mu sigma theta X_0 g i := by
  subst hsigma
  have hn1 : 1 ≤ n := by omega
  have hi : i < n := by omega
  have hi' : i - 1 < n := by omega
  unfold sigmaZeroSpec
  constructor
  · obtain ⟨p, rfl⟩ : ∃ p, i = p + 1 := ⟨i - 1, by omega⟩
    simp only [Nat.add_sub_cancel]
    simp only [Nat.add_sub_cancel] at hi'
    rw [simulate_X_getD T n (p + 1) mu 0 theta X_0 g hn1 hi,
      simulate_X_getD T n p mu 0 theta X_0 g hn1 hi']
    simp only [ouChain, zero_mul, add_zero]
  · intro g2
    rw [simulate_X_eq T n mu 0 theta X_0 g2 hn1, simulate_X_eq T n mu 0 theta X_0 g hn1]
    apply List.map_congr_left
    intro j _
    exact ouChain_sigma_zero_indep mu theta (T / (n : ℚ)) X_0 _ _ j

theorem sigma_zero_deterministic_witness : sigmaZeroSpec 1 3 2 0 1 5 ⟨fun m => m, 0⟩ 2 :=
  sigma_zero_deterministic 1 2 0 1 5 3 2 ⟨fun m => m, 0⟩ rfl (by decide) (by decide) (by decide)

/-- `torch.Tensor(data).permute(0, 2, 1)` acting on one sample: a `(2, len)`
slice `[t, X]` becomes the `(len, 2)` slice of `(time, value)` pairs,
`out[j][c] = in[c][j]`. -/
def permute021 (sample : List (List ℚ)) : List (List ℚ) :=
  (List.range (sample.getD 0 []).length).map (fun j => sample.map (fun row => row.getD j 0))

/-- The `for i in range(n_samples)` loop of `create_ou_dataset`: each
iteration simulates one path with the current generator and stores the slice
`[t, X]` (rows `data[i,0,:] = t` and `data[i,1,:] = X`). -/
def createLoop (T : ℚ) (len : ℕ) (mu sigma theta X_0 : ℚ) :
    ℕ → RNG → List (List (List ℚ)) × RNG
  | 0, g => ([], g)
  | k + 1, g =>
    let r := simulate_ou_process T len mu sigma theta X_0 g
    let rest := createLoop T len mu sigma theta X_0 k r.2
    ([r.1.1, r.1.2] :: rest.1, rest.2)

/-- Modelled from the spec: `torchcde.hermite_cubic_coefficients_with_backward_differences`
is external library code, absent from this repository.  Per the spec it applies,
per sample, "a piecewise-cubic Hermite fit with backward-difference derivative
estimates" over the normalized time axis, returning "one coefficient set per
sample".  A sample's coefficient set is modelled as, at each knot, the knot
values together with the backward-difference derivative estimates (the data of
a Hermite cubic fit); the first knot reuses the first interior estimate. -/
def hermite_cubic_coefficients_with_backward_differences
    (data : List (List (List ℚ))) (t : List ℚ) : List (List (List ℚ)) :=
  data.map (fun sample =>
    (List.range sample.length).map (fun j =>
      let j0 := max j 1
      let knot := sample.getD j []
      let cur := sample.getD j0 []
      let prev := sample.getD (j0 - 1) []
      let dtj := t.getD j0 0 - t.getD (j0 - 1) 0
      knot ++ List.zipWith (fun a b => (a - b) / dtj) cur prev))

/-- `create_ou_dataset(n_samples, T, len_trajectory, mu, sigma, theta, X_0)`:
allocates `np.zeros((n_samples, 2, len_trajectory))` (which raises for a
negative dimension), fills it by `n_samples` simulator calls, permutes to
shape `(n_samples, len_trajectory, 2)`, and computes the spline coefficients
over the normalized axis `torch.linspace(0, 1, len_trajectory)`. -/
def create_ou_dataset (n_samples : ℤ) (T : ℚ) (len_trajectory : ℕ)
    (mu sigma theta X_0 : ℚ) (g : RNG) :
    Except String ((List (List (List ℚ)) × List (List (List ℚ))) × RNG) :=
  if n_samples < 0 then Except.error "negative dimensions are not allowed"
  else
    let r := createLoop T len_trajectory mu sigma theta X_0 n_samples.toNat g
    let data := r.1.map permute021
    let norm_T := linspace 1 len_trajectory
    let spline_coeffs := hermite_cubic_coefficients_with_backward_differences data norm_T
    Except.ok ((data, spline_coeffs), r.2)

lemma nat_add_succ_mul (a b c : ℕ) : a + b + c * b = a + (c + 1) * b := by
  rw [Nat.add_mul, Nat.one_mul, Nat.add_assoc, Nat.add_comm b (c * b)]

lemma createLoop_eq (T : ℚ) (len : ℕ) (mu sigma theta X_0 : ℚ) :
    ∀ (k : ℕ) (g : RNG),
      createLoop T len mu sigma theta X_0 k g =
        ((List.range k).map (fun i =>
            [(simulate_ou_process T len mu sigma theta X_0
                ⟨g.stream, g.pos + i * (len - 1)⟩).1.1,
              (simulate_ou_process T len mu sigma theta X_0
                ⟨g.stream, g.pos + i * (len - 1)⟩).1.2]),
          ⟨g.stream, g.pos + k * (len - 1)⟩) := by
  intro k
  induction k with
  | zero => intro g; simp [createLoop]
  | succ k ih =>
    intro g
    simp only [createLoop, simulate_rng_eq, ih]
    rw [List.range_succ_eq_map, List.map_cons, List.map_map]
    simp only [Prod.mk.injEq, List.cons.injEq]
    refine ⟨⟨?_, ?_⟩, ?_⟩
    · simp
    · apply List.map_congr_left
      intro i _
      simp only [Function.comp_apply, Nat.succ_eq_add_one]
      rw [nat_add_succ_mul g.pos (len - 1) i]
    · rw [nat_add_succ_mul g.pos (len - 1) k]

lemma permute021_pair (t X : List ℚ) :
    permute021 [t, X] = (List.range t.length).map (fun j => [t.getD j 0, X.getD j 0]) := rfl

lemma create_ok (n_samples : ℤ) (T : ℚ) (len : ℕ) (mu sigma theta X_0 : ℚ) (g : RNG)
    (h0 : ¬ n_samples < 0) :
    create_ou_dataset n_samples T len mu sigma theta X_0 g =
      Except.ok
        (((List.range n_samples.toNat).map (fun i =>
            permute021
              [(simulate_ou_process T len mu sigma theta X_0
                  ⟨g.stream, g.pos + i * (len - 1)⟩).1.1,
                (simulate_ou_process T len mu sigma theta X_0
                  ⟨g.stream, g.pos + i * (len - 1)⟩).1.2]),
          hermite_cubic_coefficients_with_backward_differences
            ((List.range n_samples.toNat).map (fun i =>
              permute021
                [(simulate_ou_process T len mu sigma theta X_0
                    ⟨g.stream, g.pos + i * (len - 1)⟩).1.1,
                  (simulate_ou_process T len mu sigma theta X_0
                    ⟨g.stream, g.pos + i * (len - 1)⟩).1.2]))
            (linspace 1 len)),
          ⟨g.stream, g.pos + n_samples.toNat * (len - 1)⟩) := by
  unfold create_ou_dataset
  rw [if_neg h0]
  simp only [createLoop_eq, List.map_map]
  rfl

/-- The claimed dataset layout: `create_ou_dataset` succeeds, the dataset has
`n_samples` rows of `len_trajectory` `(time, value)` pairs — entry `[i][j][0]`
the `j`-th time-grid point and entry `[i][j][1]` the `j`-th path value of the
`i`-th simulated sample — and the coefficient array has one entry per sample. -/
def datasetSpec (n_samples : ℤ) (T : ℚ) (len : ℕ) (mu sigma theta X_0 : ℚ) (g : RNG) : Prop :=
  ∃ data coeffs gfin,
    create_ou_dataset n_samples T len mu sigma theta X_0 g =
        Except.ok ((data, coeffs), gfin) ∧
      data.length = n_samples.toNat ∧
      coeffs.length = n_samples.toNat ∧
      ∀ i, i < n_samples.toNat →
        (data.getD i []).length = len ∧
        ∀ j, j < len →
          (data.getD i []).getD j [] =
            [((simulate_ou_process T len mu sigma theta X_0
                ⟨g.stream, g.pos + i * (len - 1)⟩).1.1).getD j 0,
              ((simulate_ou_process T len mu sigma theta X_0
                ⟨g.stream, g.pos + i * (len - 1)⟩).1.2).getD j 0]

/-- C4: for `n_samples ≥ 1` and `len_trajectory ≥ 2` the first array returned
by `create_ou_dataset` has shape `(n_samples, len_trajectory, 2)` with
`dataset[i][j] = (time_j, value_j)` of the `i`-th simulated sample, and the
coefficient array has `n_samples` per-sample entries. -/
theorem dataset_shape_pairing (n_samples : ℤ) (T mu sigma theta X_0 : ℚ) (len : ℕ) (g : RNG)
    (hs : 1 ≤ n_samples) (hlen : 2 ≤ len) :
    datasetSpec n_samples T len mu sigma theta X_0 g := by
  have h0 : ¬ n_samples < 0 := by omega
  refine ⟨_, _, _, create_ok n_samples T len mu sigma theta X_0 g h0, ?_, ?_, ?_⟩
  · simp
  · unfold hermite_cubic_coefficients_with_backward_differences
    simp
  · intro i hi
    rw [getD_range_map _ _ hi]
    rw [permute021_pair]
    have hlen_t : ((simulate_ou_process T len mu sigma theta X_0
        ⟨g.stream, g.pos + i * (len - 1)⟩).1.1).length = len := by
      rw [simulate_t_eq]
      exact linspace_length T len
    rw [hlen_t]
    constructor
    · simp
    · intro j hj
      exact getD_range_map _ _ hj

theorem dataset_shape_pairing_witness : datasetSpec 5 1 10 0 0 0 0 ⟨fun m => m, 0⟩ :=
  dataset_shape_pairing 5 1 0 0 0 0 10 ⟨fun m => m, 0⟩ (by decide) (by decide)

/-- C7 counterexample: with `n_samples = 0` (and otherwise valid parameters)
`create_ou_dataset` does not fail — `np.zeros((0, 2, len))` is a legal empty
allocation, the sampling loop runs zero times, and the call returns an empty
dataset, refuting the claim that every `n_samples ≤ 0` fails. -/
theorem create_ou_dataset_zero_samples_ok :
    create_ou_dataset 0 1 2 0 0 0 0 ⟨fun _ => 0, 0⟩ =
      Except.ok (([], []), ⟨fun _ => 0, 0⟩) := rfl

/-- The amended behaviour: a strictly negative `n_samples` makes the array
allocation raise, while `n_samples = 0` returns an empty dataset and empty
coefficients without error and leaves the generator untouched. -/
def createFailSpec (n_samples : ℤ) (T : ℚ) (len : ℕ) (mu sigma theta X_0 : ℚ) (g : RNG) : Prop :=
  (n_samples < 0 →
    create_ou_dataset n_samples T len mu sigma theta X_0 g =
      Except.error "negative dimensions are not allowed") ∧
  (n_samples = 0 →
    create_ou_dataset n_samples T len mu sigma theta X_0 g = Except.ok (([], []), g))

/-- C7 (amended): for `n_samples ≤ 0`, the call fails exactly when
`n_samples < 0` (negative array dimension); at `n_samples = 0` it returns an
empty dataset without error. -/
theorem create_fails_iff_negative (n_samples : ℤ) (T mu sigma theta X_0 : ℚ) (len : ℕ)
    (g : RNG) (hn : n_samples ≤ 0) :
    createFailSpec n_samples T len mu sigma theta X_0 g := by
  constructor
  · intro h
    unfold create_ou_dataset
    rw [if_pos h]
  · intro h
    subst h
    rfl

theorem create_fails_iff_negative_witness : createFailSpec (-1) 1 2 0 0 0 0 ⟨fun m => m, 0⟩ :=
  create_fails_iff_negative (-1) 1 0 0 0 0 2 ⟨fun m => m, 0⟩ (by decide)

end NSDE
